import Mathlib

/-!
Verification of the streaming Aggregation Engine (`Sum`, `Mean` accumulators)
and the accuracy Metric Functions of the forecast-evaluation core.

The implementation modules (`gluonts_customized/ev/aggregations.py` and
`gluonts_customized/evaluation/metrics.py`) are exercised by the test files
`test/ev/test_aggregations.py` and `test/evaluation/test_metrics.py`; the
definitions below are modelled from the specification (spec.md §4.2, §4.3)
and cross-checked against the concrete expected values of those tests.

Numbers are modelled as exact extended rationals with IEEE-754 special
values (`0/0 = NaN`, `x/0 = ±Inf` for nonzero `x`, NaN propagation through
every arithmetic operation), as §4.2 of the spec prescribes.
-/

/-- Modelled from the spec (§4.2): the value domain of metric and
accumulator arithmetic — an exact rational together with the IEEE-754
special values `+Inf`, `-Inf` and `NaN`. -/
inductive ERat : Type where
  | fin : ℚ → ERat
  | pinf : ERat
  | ninf : ERat
  | nan : ERat
deriving DecidableEq, Repr

namespace ERat

/-- IEEE addition: NaN propagates, `Inf + (-Inf) = NaN`. -/
def add : ERat → ERat → ERat
  | fin a, fin b => fin (a + b)
  | fin _, pinf => pinf
  | fin _, ninf => ninf
  | fin _, nan => nan
  | pinf, fin _ => pinf
  | pinf, pinf => pinf
  | pinf, ninf => nan
  | pinf, nan => nan
  | ninf, fin _ => ninf
  | ninf, pinf => nan
  | ninf, ninf => ninf
  | ninf, nan => nan
  | nan, _ => nan

/-- IEEE negation. -/
def neg : ERat → ERat
  | fin a => fin (-a)
  | pinf => ninf
  | ninf => pinf
  | nan => nan

/-- IEEE multiplication: NaN propagates, `0 * Inf = NaN`. -/
def mul : ERat → ERat → ERat
  | fin a, fin b => fin (a * b)
  | fin a, pinf => if a = 0 then nan else if 0 < a then pinf else ninf
  | fin a, ninf => if a = 0 then nan else if 0 < a then ninf else pinf
  | fin _, nan => nan
  | pinf, fin b => if b = 0 then nan else if 0 < b then pinf else ninf
  | pinf, pinf => pinf
  | pinf, ninf => ninf
  | pinf, nan => nan
  | ninf, fin b => if b = 0 then nan else if 0 < b then ninf else pinf
  | ninf, pinf => ninf
  | ninf, ninf => pinf
  | ninf, nan => nan
  | nan, _ => nan

/-- IEEE division: `0/0 = NaN`, `x/0 = ±Inf` for nonzero `x` (the zero
denominator is a positive zero, as produced by numpy), `Inf/Inf = NaN`,
NaN propagates. -/
def div : ERat → ERat → ERat
  | fin a, fin b =>
      if b = 0 then (if a = 0 then nan else if 0 < a then pinf else ninf)
      else fin (a / b)
  | fin _, pinf => fin 0
  | fin _, ninf => fin 0
  | fin _, nan => nan
  | pinf, fin b => if 0 ≤ b then pinf else ninf
  | pinf, pinf => nan
  | pinf, ninf => nan
  | pinf, nan => nan
  | ninf, fin b => if 0 ≤ b then ninf else pinf
  | ninf, pinf => nan
  | ninf, ninf => nan
  | ninf, nan => nan
  | nan, _ => nan

/-- IEEE absolute value. -/
def abs : ERat → ERat
  | fin a => fin |a|
  | pinf => pinf
  | ninf => pinf
  | nan => nan

/-- IEEE ordered comparison `≤`: any comparison with NaN is false. -/
def leb : ERat → ERat → Bool
  | fin a, fin b => decide (a ≤ b)
  | fin _, pinf => true
  | fin _, ninf => false
  | fin _, nan => false
  | pinf, fin _ => false
  | pinf, pinf => true
  | pinf, ninf => false
  | pinf, nan => false
  | ninf, fin _ => true
  | ninf, pinf => true
  | ninf, ninf => true
  | ninf, nan => false
  | nan, _ => false

instance : Add ERat := ⟨add⟩
instance : Neg ERat := ⟨neg⟩
instance : Mul ERat := ⟨mul⟩
instance : Div ERat := ⟨div⟩
instance : Zero ERat := ⟨fin 0⟩

/-- IEEE subtraction, as addition of the negation (this agrees with IEEE
subtraction on every case). -/
instance : Sub ERat := ⟨fun a b => a + (-b)⟩

theorem add_def (a b : ERat) : a + b = add a b := rfl

theorem zero_def : (0 : ERat) = fin 0 := rfl

theorem sub_def (a b : ERat) : a - b = add a (neg b) := rfl

theorem mul_def (a b : ERat) : a * b = mul a b := rfl

theorem div_def (a b : ERat) : a / b = div a b := rfl

theorem add_assoc' (a b c : ERat) : a + b + c = a + (b + c) := by
  cases a <;> cases b <;> cases c <;> simp [add_def, add] <;> ring

theorem add_comm' (a b : ERat) : a + b = b + a := by
  cases a <;> cases b <;> simp [add_def, add] <;> ring

theorem zero_add' (a : ERat) : 0 + a = a := by
  cases a <;> simp [zero_def, add_def, add]

theorem add_zero' (a : ERat) : a + 0 = a := by
  cases a <;> simp [zero_def, add_def, add]

instance : AddCommMonoid ERat where
  add_assoc := add_assoc'
  zero_add := zero_add'
  add_zero := add_zero'
  add_comm := add_comm'
  nsmul := nsmulRec

theorem nan_add (a : ERat) : nan + a = nan := rfl

theorem add_nan (a : ERat) : a + nan = nan := by
  cases a <;> rfl

theorem div_fin_fin (a b : ℚ) :
    fin a / fin b
      = if b = 0 then (if a = 0 then nan else if 0 < a then pinf else ninf)
        else fin (a / b) := rfl

theorem div_pinf_fin (b : ℚ) :
    pinf / fin b = if 0 ≤ b then pinf else ninf := rfl

theorem nan_div (x : ERat) : nan / x = nan := rfl

end ERat

/-!
### Metric functions

Modelled from the spec (§4.2). One-dimensional arrays are `List ERat`;
elementwise operations zip the two argument lists, means divide a sum by
the element count (an empty mean is `0/0 = NaN`).
-/

/-- Modelled from the spec (§4.2): `mean` of a one-dimensional array —
the sum divided by the element count, with IEEE division (an empty or
all-NaN input yields NaN). -/
def meanE (l : List ERat) : ERat := l.sum / ERat.fin (l.length : ℚ)

/-- Modelled from the spec (§4.2): `abs_error = sum(|target - forecast|)`
(a dataset-level sum, not a mean). -/
def abs_error (target forecast : List ERat) : ERat :=
  (List.zipWith (fun t f => (t - f).abs) target forecast).sum

/-- Modelled from the spec (§4.2): `mse = mean((target - forecast)^2)`. -/
def mse (target forecast : List ERat) : ERat :=
  meanE (List.zipWith (fun t f => (t - f) * (t - f)) target forecast)

/-- Modelled from the spec (§4.2):
`mape = mean(|target - forecast| / |target|)`, elementwise IEEE
division before the mean. -/
def mape (target forecast : List ERat) : ERat :=
  meanE (List.zipWith (fun t f => (t - f).abs / t.abs) target forecast)

/-- Modelled from the spec (§4.2):
`smape = 2 * mean(|target - forecast| / (|target| + |forecast|))`. -/
def smape (target forecast : List ERat) : ERat :=
  ERat.fin 2 *
    meanE (List.zipWith (fun t f => (t - f).abs / (t.abs + f.abs)) target forecast)

/-- Modelled from the spec (§4.2):
`mase = mean(|target - forecast|) / seasonal_error`, where
`seasonal_error` is a precomputed scalar. -/
def mase (target forecast : List ERat) (seasonal_error : ERat) : ERat :=
  meanE (List.zipWith (fun t f => (t - f).abs) target forecast) / seasonal_error

/-- Modelled from the spec (§4.2): `quantile_loss` at level `q` —
`2 * sum(q*(t-f) if t ≥ f else (1-q)*(f-t))` summed over all points. -/
def quantile_loss (target forecast : List ERat) (q : ERat) : ERat :=
  ERat.fin 2 *
    (List.zipWith
      (fun t f => if ERat.leb f t then q * (t - f) else (ERat.fin 1 - q) * (f - t))
      target forecast).sum

/-- Modelled from the spec (§4.2): `coverage = mean(target ≤ forecast)`
(boolean 0/1 per point, then mean); equality counts as covered. -/
def coverage (target forecast : List ERat) : ERat :=
  meanE (List.zipWith
    (fun t f => if ERat.leb t f then ERat.fin 1 else ERat.fin 0) target forecast)

/-- Modelled from the spec (§4.2): the seasonal-error formula
`mean(|past_data[seasonality:] - past_data[:-seasonality]|)` at a given
seasonality. -/
def seasonal_error_formula (past_data : List ERat) (seasonality : Nat) : ERat :=
  meanE (List.zipWith (fun a b => (a - b).abs)
    (past_data.drop seasonality)
    (past_data.take (past_data.length - seasonality)))

/-- Modelled from the spec (§4.2): `calculate_seasonal_error` applies the
seasonal-error formula when `seasonality < len(past_data)` and otherwise
falls back to `seasonality = 1` and recomputes. -/
def calculate_seasonal_error (past_data : List ERat) (seasonality : Nat) : ERat :=
  if seasonality < past_data.length then seasonal_error_formula past_data seasonality
  else seasonal_error_formula past_data 1

/-- The `ZEROES` array of `test/evaluation/test_metrics.py`. -/
def ZEROES : List ERat :=
  [ERat.fin 0, ERat.fin 0, ERat.fin 0, ERat.fin 0, ERat.fin 0]

/-- The `LINEAR` array `[0, 0.1, 0.2, 0.3, 0.4]` of
`test/evaluation/test_metrics.py`. -/
def LINEAR : List ERat :=
  [ERat.fin 0, ERat.fin (1/10), ERat.fin (2/10), ERat.fin (3/10), ERat.fin (4/10)]

/-- The `CONSTANT` array `[0.4] * 5` of `test/evaluation/test_metrics.py`. -/
def CONSTANT : List ERat :=
  [ERat.fin (4/10), ERat.fin (4/10), ERat.fin (4/10), ERat.fin (4/10), ERat.fin (4/10)]

/-!
### The streaming Aggregation Engine

Modelled from the spec (§3, §4.3). An n-dimensional array with extents
`shape = [n0, n1, ...]` is a total function `Index → ERat` read only on
in-range indices; a mask is a parallel `Index → Bool` function (`true`
means the entry is excluded). A reduction-axis specification is a
predicate `R : Nat → Bool` (`R i` means axis `i` of the virtual
concatenated array is collapsed; `fun i => true` is `axis=None`).

The shape invariant of §3 (every non-axis-0 extent is call-invariant) is
structural here: an accumulator is given a fixed tail shape `s` and each
batch contributes only its own axis-0 extent `Batch.n`.
-/

/-- An index into an n-dimensional array: one coordinate per axis. -/
abbrev Index : Type := List Nat

/-- A shape: the extent of each axis. -/
abbrev Shape : Type := List Nat

/-- Masked sum-reduction of an array of shape `s` over the axes selected
by `R`: a reduced axis is summed over its extent, a kept axis consumes
the next coordinate of the result index. Modelled from the spec (§4.3):
masked entries have already been replaced by `0` in the value function. -/
def redSum (R : Nat → Bool) : (s : Shape) → (Index → ERat) → Index → ERat
  | [], f, _ => f []
  | n :: s, f, idx =>
      if R 0 then
        Finset.sum (Finset.range n)
          (fun i => redSum (fun k => R (k + 1)) s (fun jdx => f (i :: jdx)) idx)
      else
        redSum (fun k => R (k + 1)) s (fun jdx => f (idx.headD 0 :: jdx)) idx.tail

/-- Concatenation along axis 0 of a value function `f` of axis-0 extent
`n` with a value function `g`: coordinates below `n` read `f`, the rest
read `g` shifted. -/
def catFun (n : Nat) (f g : Index → ERat) : Index → ERat := fun idx =>
  match idx with
  | [] => f []
  | i :: jdx => if i < n then f (i :: jdx) else g ((i - n) :: jdx)

/-- Concatenation along axis 0 of a list of `(axis-0 extent, values)`
pairs; `d` is the value read past the end (in particular the value of the
empty concatenation). -/
def catList (d : ERat) : List (Nat × (Index → ERat)) → Index → ERat
  | [] => fun _ => d
  | (n, f) :: ps => catFun n f (catList d ps)

/-- One `step` observation: its axis-0 extent, its values, and its mask
(`true` = the entry is excluded from every reduction). -/
structure Batch where
  n : Nat
  val : Index → ERat
  msk : Index → Bool

/-- The batch's values with masked entries replaced by `0` (their
contribution to any sum numerator, per §4.1). -/
def mval (b : Batch) : Index → ERat := fun idx =>
  if b.msk idx then ERat.fin 0 else b.val idx

/-- The batch's valid-entry indicator (`1` for an unmasked entry, `0` for
a masked one): summing it counts the entries a `Mean` divides by. -/
def cval (b : Batch) : Index → ERat := fun idx =>
  if b.msk idx then ERat.fin 0 else ERat.fin 1

/-- Total axis-0 extent of a batch stream: the axis-0 extent of the
virtual concatenated array. -/
def totExt (bs : List Batch) : Nat := (bs.map Batch.n).sum

/-- The masked values of the virtual concatenation of a batch stream
along axis 0. -/
def concatVals (bs : List Batch) : Index → ERat :=
  catList (ERat.fin 0) (bs.map fun b => (b.n, mval b))

/-- The valid-entry indicators of the virtual concatenation of a batch
stream along axis 0. -/
def concatCnts (bs : List Batch) : Index → ERat :=
  catList (ERat.fin 0) (bs.map fun b => (b.n, cval b))

/-- The shape of the reduction of an array of shape `s` over the axes
selected by `R`: reduced axes disappear, kept axes keep their extents. -/
def redShape (R : Nat → Bool) : Shape → Shape
  | [] => []
  | n :: s =>
      if R 0 then redShape (fun k => R (k + 1)) s
      else n :: redShape (fun k => R (k + 1)) s

/-- Whether an index lies within a shape (same rank, every coordinate
within its extent). -/
def validIdx : Shape → Index → Bool
  | [], [] => true
  | n :: s, i :: idx => decide (i < n) && validIdx s idx
  | _, _ => false

/-- Modelled from the spec (§4.3, `Sum`): the accumulator state — a
running total (used when axis 0 is reduced; starts at `0` everywhere so
that an un-stepped accumulator reads `0`) and the list of per-batch
reductions appended so far (used when axis 0 is kept). -/
structure SumAcc where
  total : Index → ERat
  parts : List (Nat × (Index → ERat))

/-- Modelled from the spec (§4.3): the state of a fresh `Sum`
accumulator. -/
def sumInit : SumAcc := ⟨fun _ => ERat.fin 0, []⟩

/-- Modelled from the spec (§4.3, `Sum.step`): reduce the batch over the
configured axes; if axis 0 is reduced, add the result to the running
total, otherwise append it along axis 0. -/
def sumStep (R : Nat → Bool) (s : Shape) (acc : SumAcc) (b : Batch) : SumAcc :=
  if R 0 then
    ⟨fun idx => acc.total idx + redSum R (b.n :: s) (mval b) idx, acc.parts⟩
  else
    ⟨acc.total, acc.parts ++ [(b.n, redSum R (b.n :: s) (mval b))]⟩

/-- Modelled from the spec (§4.3, `Sum.get`): the running total when
axis 0 is reduced, otherwise the concatenation of the appended per-batch
reductions (the identity `0` when nothing was appended). -/
def sumGet (R : Nat → Bool) (acc : SumAcc) : Index → ERat :=
  if R 0 then acc.total else catList (ERat.fin 0) acc.parts

/-- Modelled from the spec (§4.3, `Mean`): the accumulator state — a
running numerator and running valid-entry count (used when axis 0 is
reduced; division happens only at `get` time), and the list of per-batch
reductions appended so far (used when axis 0 is kept). -/
structure MeanAcc where
  num : Index → ERat
  den : Index → ERat
  parts : List (Nat × (Index → ERat))

/-- Modelled from the spec (§4.3): the state of a fresh `Mean`
accumulator. -/
def meanInit : MeanAcc := ⟨fun _ => ERat.fin 0, fun _ => ERat.fin 0, []⟩

/-- Modelled from the spec (§4.3, `Mean.step`): if axis 0 is reduced,
add the batch's reduced numerator and valid count to the running ones;
otherwise append the batch's own mean (numerator over count) along
axis 0. -/
def meanStep (R : Nat → Bool) (s : Shape) (acc : MeanAcc) (b : Batch) : MeanAcc :=
  if R 0 then
    ⟨fun idx => acc.num idx + redSum R (b.n :: s) (mval b) idx,
     fun idx => acc.den idx + redSum R (b.n :: s) (cval b) idx,
     acc.parts⟩
  else
    ⟨acc.num, acc.den,
     acc.parts ++
       [(b.n, fun idx =>
          redSum R (b.n :: s) (mval b) idx / redSum R (b.n :: s) (cval b) idx)]⟩

/-- Modelled from the spec (§4.3, `Mean.get`): numerator over count when
axis 0 is reduced (`0/0 = NaN` for a fresh accumulator), otherwise the
concatenation of the appended per-batch means (the identity `NaN` when
nothing was appended). -/
def meanGet (R : Nat → Bool) (acc : MeanAcc) : Index → ERat :=
  if R 0 then fun idx => acc.num idx / acc.den idx
  else catList ERat.nan acc.parts

/-- The one-shot reference behaviour of `Sum` (spec §8): reduce the whole
virtual concatenation of the stream in one pass. -/
def oneShotSum (R : Nat → Bool) (s : Shape) (bs : List Batch) : Index → ERat :=
  redSum R (totExt bs :: s) (concatVals bs)

/-- The one-shot reference behaviour of `Mean` (spec §8): the masked sum
of the whole virtual concatenation over the reduced axes, divided by the
valid-entry count over those axes. -/
def oneShotMean (R : Nat → Bool) (s : Shape) (bs : List Batch) : Index → ERat :=
  fun idx =>
    redSum R (totExt bs :: s) (concatVals bs) idx /
      redSum R (totExt bs :: s) (concatCnts bs) idx

/-- The reduction specification `axis = (0,)`. -/
def axisZero : Nat → Bool := fun k => k == 0

/-- The reduction specification `axis = (1,)`. -/
def axisOne : Nat → Bool := fun k => k == 1

/-- First masked batch of scenarios C and D of the spec (§8), as built by
`np.ma.masked_invalid([[0, nan], [0, 0]])`: the NaN entry is masked. -/
def scenBatch1 : Batch :=
  ⟨2,
   fun idx => if idx = [0, 1] then ERat.nan else ERat.fin 0,
   fun idx => decide (idx = [0, 1])⟩

/-- Second masked batch of scenarios C and D of the spec (§8), as built
by `np.ma.masked_invalid([[0, 5], [-5, nan]])`: the NaN entry is
masked. -/
def scenBatch2 : Batch :=
  ⟨2,
   fun idx =>
     if idx = [0, 1] then ERat.fin 5
     else if idx = [1, 0] then ERat.fin (-5)
     else if idx = [1, 1] then ERat.nan
     else ERat.fin 0,
   fun idx => decide (idx = [1, 1])⟩

/-!
### Streaming/one-shot equivalence lemmas
-/

theorem redSum_zero : ∀ (s : Shape) (R : Nat → Bool) (idx : Index),
    redSum R s (fun _ => (0 : ERat)) idx = 0
  | [], _, _ => rfl
  | n :: s, R, idx => by
      by_cases hR : R 0 = true
      · simp [redSum, hR, redSum_zero s]
      · simp only [Bool.not_eq_true] at hR
        simp [redSum, hR, redSum_zero s]

theorem redSum_cat_true (R : Nat → Bool) (hR : R 0 = true) (s : Shape)
    (n m : Nat) (f g : Index → ERat) (idx : Index) :
    redSum R ((n + m) :: s) (catFun n f g) idx
      = redSum R (n :: s) f idx + redSum R (m :: s) g idx := by
  simp only [redSum, hR, if_true]
  rw [Finset.sum_range_add]
  congr 1
  · apply Finset.sum_congr rfl
    intro i hi
    have hin : i < n := Finset.mem_range.mp hi
    have : (fun jdx => catFun n f g (i :: jdx)) = fun jdx => f (i :: jdx) := by
      funext jdx; simp [catFun, hin]
    rw [this]
  · apply Finset.sum_congr rfl
    intro i _
    have hnot : ¬ (n + i < n) := by omega
    have : (fun jdx => catFun n f g ((n + i) :: jdx)) = fun jdx => g (i :: jdx) := by
      funext jdx; simp [catFun, hnot, Nat.add_sub_cancel_left]
    rw [this]

theorem redSum_cat_false (R : Nat → Bool) (hR : R 0 = false) (s : Shape)
    (n m : Nat) (f g : Index → ERat) (i : Nat) (idx : Index) :
    redSum R ((n + m) :: s) (catFun n f g) (i :: idx)
      = if i < n then redSum R (n :: s) f (i :: idx)
        else redSum R (m :: s) g ((i - n) :: idx) := by
  have hlhs : redSum R ((n + m) :: s) (catFun n f g) (i :: idx)
      = redSum (fun k => R (k + 1)) s (fun jdx => catFun n f g (i :: jdx)) idx := by
    simp [redSum, hR]
  by_cases hin : i < n
  · rw [hlhs, if_pos hin]
    have : (fun jdx => catFun n f g (i :: jdx)) = fun jdx => f (i :: jdx) := by
      funext jdx; simp [catFun, hin]
    rw [this]
    simp [redSum, hR]
  · rw [hlhs, if_neg hin]
    have : (fun jdx => catFun n f g (i :: jdx)) = fun jdx => g ((i - n) :: jdx) := by
      funext jdx; simp [catFun, hin]
    rw [this]
    simp [redSum, hR]

theorem redSum_catList_true (R : Nat → Bool) (hR : R 0 = true) (s : Shape) :
    ∀ (ps : List (Nat × (Index → ERat))) (idx : Index),
      redSum R ((ps.map Prod.fst).sum :: s) (catList (ERat.fin 0) ps) idx
        = (ps.map (fun p => redSum R (p.1 :: s) p.2 idx)).sum
  | [], idx => by
      simpa [catList] using redSum_zero (0 :: s) R idx
  | (n, f) :: ps, idx => by
      simp only [List.map_cons, List.sum_cons]
      rw [show catList (ERat.fin 0) ((n, f) :: ps)
            = catFun n f (catList (ERat.fin 0) ps) from rfl]
      rw [redSum_cat_true R hR s n ((ps.map Prod.fst).sum)]
      rw [redSum_catList_true R hR s ps idx]

theorem redSum_catList_false (R : Nat → Bool) (hR : R 0 = false) (s : Shape)
    (d d' : ERat) :
    ∀ (ps : List (Nat × (Index → ERat))) (i : Nat) (idx : Index),
      i < (ps.map Prod.fst).sum →
      redSum R ((ps.map Prod.fst).sum :: s) (catList d ps) (i :: idx)
        = catList d' (ps.map (fun p => (p.1, redSum R (p.1 :: s) p.2))) (i :: idx)
  | [], i, idx, h => by simp at h
  | (n, f) :: ps, i, idx, h => by
      simp only [List.map_cons, List.sum_cons] at h ⊢
      rw [show catList d ((n, f) :: ps) = catFun n f (catList d ps) from rfl]
      rw [redSum_cat_false R hR s n ((ps.map Prod.fst).sum)]
      by_cases hin : i < n
      · rw [if_pos hin]
        simp [catList, catFun, hin]
      · rw [if_neg hin]
        have h' : i - n < (ps.map Prod.fst).sum := by omega
        rw [redSum_catList_false R hR s d d' ps (i - n) idx h']
        simp [catList, catFun, hin]

theorem sumFold_total (R : Nat → Bool) (hR : R 0 = true) (s : Shape) :
    ∀ (bs : List Batch) (acc : SumAcc) (idx : Index),
      (List.foldl (sumStep R s) acc bs).total idx
        = acc.total idx + (bs.map (fun b => redSum R (b.n :: s) (mval b) idx)).sum
  | [], acc, idx => by simp
  | b :: bs, acc, idx => by
      simp only [List.foldl_cons, List.map_cons, List.sum_cons]
      rw [sumFold_total R hR s bs _ idx]
      simp [sumStep, hR, add_assoc]

theorem sumFold_parts (R : Nat → Bool) (hR : R 0 = false) (s : Shape) :
    ∀ (bs : List Batch) (acc : SumAcc),
      (List.foldl (sumStep R s) acc bs).parts
        = acc.parts ++ bs.map (fun b => (b.n, redSum R (b.n :: s) (mval b)))
  | [], acc => by simp
  | b :: bs, acc => by
      simp only [List.foldl_cons, List.map_cons]
      rw [sumFold_parts R hR s bs _]
      simp [sumStep, hR]

theorem meanFold_num (R : Nat → Bool) (hR : R 0 = true) (s : Shape) :
    ∀ (bs : List Batch) (acc : MeanAcc) (idx : Index),
      (List.foldl (meanStep R s) acc bs).num idx
        = acc.num idx + (bs.map (fun b => redSum R (b.n :: s) (mval b) idx)).sum
  | [], acc, idx => by simp
  | b :: bs, acc, idx => by
      simp only [List.foldl_cons, List.map_cons, List.sum_cons]
      rw [meanFold_num R hR s bs _ idx]
      simp [meanStep, hR, add_assoc]

theorem meanFold_den (R : Nat → Bool) (hR : R 0 = true) (s : Shape) :
    ∀ (bs : List Batch) (acc : MeanAcc) (idx : Index),
      (List.foldl (meanStep R s) acc bs).den idx
        = acc.den idx + (bs.map (fun b => redSum R (b.n :: s) (cval b) idx)).sum
  | [], acc, idx => by simp
  | b :: bs, acc, idx => by
      simp only [List.foldl_cons, List.map_cons, List.sum_cons]
      rw [meanFold_den R hR s bs _ idx]
      simp [meanStep, hR, add_assoc]

theorem meanFold_parts (R : Nat → Bool) (hR : R 0 = false) (s : Shape) :
    ∀ (bs : List Batch) (acc : MeanAcc),
      (List.foldl (meanStep R s) acc bs).parts
        = acc.parts ++ bs.map (fun b => (b.n, fun jdx =>
            redSum R (b.n :: s) (mval b) jdx / redSum R (b.n :: s) (cval b) jdx))
  | [], acc => by simp
  | b :: bs, acc => by
      simp only [List.foldl_cons, List.map_cons]
      rw [meanFold_parts R hR s bs _]
      simp [meanStep, hR]

theorem mean_catList_false (R : Nat → Bool) (hR : R 0 = false) (s : Shape) :
    ∀ (bs : List Batch) (i : Nat) (idx : Index),
      i < totExt bs →
      catList ERat.nan
        (bs.map fun b => (b.n, fun jdx =>
          redSum R (b.n :: s) (mval b) jdx / redSum R (b.n :: s) (cval b) jdx))
        (i :: idx)
        = oneShotMean R s bs (i :: idx)
  | [], i, idx, h => by simp [totExt] at h
  | b :: bs, i, idx, h => by
      have htot : totExt (b :: bs) = b.n + totExt bs := by
        simp [totExt]
      have hvals : concatVals (b :: bs) = catFun b.n (mval b) (concatVals bs) := rfl
      have hcnts : concatCnts (b :: bs) = catFun b.n (cval b) (concatCnts bs) := rfl
      rw [htot] at h
      simp only [List.map_cons]
      rw [show catList ERat.nan
            ((b.n, fun jdx =>
              redSum R (b.n :: s) (mval b) jdx / redSum R (b.n :: s) (cval b) jdx) ::
              bs.map fun b => (b.n, fun jdx =>
                redSum R (b.n :: s) (mval b) jdx / redSum R (b.n :: s) (cval b) jdx))
            = catFun b.n
                (fun jdx =>
                  redSum R (b.n :: s) (mval b) jdx / redSum R (b.n :: s) (cval b) jdx)
                (catList ERat.nan (bs.map fun b => (b.n, fun jdx =>
                  redSum R (b.n :: s) (mval b) jdx / redSum R (b.n :: s) (cval b) jdx)))
          from rfl]
      unfold oneShotMean
      rw [htot, hvals, hcnts]
      rw [redSum_cat_false R hR s b.n (totExt bs) (mval b) (concatVals bs) i idx]
      rw [redSum_cat_false R hR s b.n (totExt bs) (cval b) (concatCnts bs) i idx]
      by_cases hin : i < b.n
      · rw [if_pos hin, if_pos hin]
        simp [catFun, hin]
      · rw [if_neg hin, if_neg hin]
        have h' : i - b.n < totExt bs := by omega
        have := mean_catList_false R hR s bs (i - b.n) idx h'
        unfold oneShotMean at this
        simp only [catFun, if_neg hin]
        exact this

theorem sum_stream_eq_oneshot (R : Nat → Bool) (s : Shape) (bs : List Batch)
    (idx : Index)
    (h : validIdx (redShape R (totExt bs :: s)) idx = true) :
    sumGet R (List.foldl (sumStep R s) sumInit bs) idx = oneShotSum R s bs idx := by
  by_cases hR : R 0 = true
  · have hL : sumGet R (List.foldl (sumStep R s) sumInit bs) idx
        = (bs.map (fun b => redSum R (b.n :: s) (mval b) idx)).sum := by
      simp only [sumGet, hR, if_true]
      rw [sumFold_total R hR s bs sumInit idx]
      simp [sumInit, ← ERat.zero_def]
    have h2 := redSum_catList_true R hR s (bs.map fun b => (b.n, mval b)) idx
    simp only [List.map_map, Function.comp] at h2
    rw [hL]
    exact h2.symm
  · have hR' : R 0 = false := by simpa using hR
    have hshape : redShape R (totExt bs :: s)
        = totExt bs :: redShape (fun k => R (k + 1)) s := by
      simp [redShape, hR']
    rw [hshape] at h
    cases idx with
    | nil => simp [validIdx] at h
    | cons i idx₁ =>
        have hi : i < totExt bs := by
          simp [validIdx] at h
          exact h.1
        have hL : sumGet R (List.foldl (sumStep R s) sumInit bs) (i :: idx₁)
            = catList (ERat.fin 0)
                (bs.map fun b => (b.n, redSum R (b.n :: s) (mval b))) (i :: idx₁) := by
          simp only [sumGet, hR', Bool.false_eq_true, if_false]
          rw [sumFold_parts R hR' s bs sumInit]
          simp [sumInit]
        have hi' : i < ((bs.map fun b => (b.n, mval b)).map Prod.fst).sum := by
          simpa [List.map_map, Function.comp, totExt] using hi
        have h2 := redSum_catList_false R hR' s (ERat.fin 0) (ERat.fin 0)
          (bs.map fun b => (b.n, mval b)) i idx₁ hi'
        simp only [List.map_map, Function.comp] at h2
        rw [hL]
        exact h2.symm

theorem mean_stream_eq_oneshot (R : Nat → Bool) (s : Shape) (bs : List Batch)
    (idx : Index)
    (h : validIdx (redShape R (totExt bs :: s)) idx = true) :
    meanGet R (List.foldl (meanStep R s) meanInit bs) idx = oneShotMean R s bs idx := by
  by_cases hR : R 0 = true
  · have hnum : (List.foldl (meanStep R s) meanInit bs).num idx
        = (bs.map (fun b => redSum R (b.n :: s) (mval b) idx)).sum := by
      rw [meanFold_num R hR s bs meanInit idx]
      simp [meanInit, ← ERat.zero_def]
    have hden : (List.foldl (meanStep R s) meanInit bs).den idx
        = (bs.map (fun b => redSum R (b.n :: s) (cval b) idx)).sum := by
      rw [meanFold_den R hR s bs meanInit idx]
      simp [meanInit, ← ERat.zero_def]
    have h2 := redSum_catList_true R hR s (bs.map fun b => (b.n, mval b)) idx
    have h3 := redSum_catList_true R hR s (bs.map fun b => (b.n, cval b)) idx
    simp only [List.map_map, Function.comp] at h2 h3
    simp only [meanGet, hR, if_true]
    unfold oneShotMean
    rw [hnum, hden]
    rw [show redSum R (totExt bs :: s) (concatVals bs) idx
          = (bs.map (fun b => redSum R (b.n :: s) (mval b) idx)).sum from h2]
    rw [show redSum R (totExt bs :: s) (concatCnts bs) idx
          = (bs.map (fun b => redSum R (b.n :: s) (cval b) idx)).sum from h3]
  · have hR' : R 0 = false := by simpa using hR
    have hshape : redShape R (totExt bs :: s)
        = totExt bs :: redShape (fun k => R (k + 1)) s := by
      simp [redShape, hR']
    rw [hshape] at h
    cases idx with
    | nil => simp [validIdx] at h
    | cons i idx₁ =>
        have hi : i < totExt bs := by
          simp [validIdx] at h
          exact h.1
        have hL : meanGet R (List.foldl (meanStep R s) meanInit bs) (i :: idx₁)
            = catList ERat.nan
                (bs.map fun b => (b.n, fun jdx =>
                  redSum R (b.n :: s) (mval b) jdx / redSum R (b.n :: s) (cval b) jdx))
                (i :: idx₁) := by
          simp only [meanGet, hR', Bool.false_eq_true, if_false]
          rw [meanFold_parts R hR' s bs meanInit]
          simp [meanInit]
        rw [hL]
        exact mean_catList_false R hR' s bs i idx₁ hi

/-- Entries of a list of zeros sum to zero: used for all-masked streams. -/
theorem catList_const (d : ERat) : ∀ (ps : List (Nat × (Index → ERat))),
    (∀ p ∈ ps, ∀ jdx, p.2 jdx = d) → ∀ idx, catList d ps idx = d
  | [], _, _ => rfl
  | (n, f) :: ps, h, idx => by
      have hf : ∀ jdx, f jdx = d := fun jdx => h (n, f) (List.mem_cons_self _ _) jdx
      cases idx with
      | nil => simp [catList, catFun, hf]
      | cons i jdx =>
          by_cases hin : i < n
          · simp [catList, catFun, hin, hf]
          · simp only [catList, catFun, if_neg hin]
            exact catList_const d ps (fun p hp => h p (List.mem_cons_of_mem _ hp)) _

/-- Claim C1: for every accumulator (`Sum` or `Mean`) with any
reduction-axis specification `R`, tail shape `s` and batch stream `bs`
(the axis-extent invariant is structural: every batch shares the tail
shape `s` and contributes its own axis-0 extent), `get()` after stepping
all batches agrees with the one-shot masked reduction of the
concatenation of the stream along axis 0, at every valid index of the
reduced shape. -/
theorem streaming_equals_oneshot (R : Nat → Bool) (s : Shape) (bs : List Batch)
    (idx : Index) (h : validIdx (redShape R (totExt bs :: s)) idx = true) :
    sumGet R (List.foldl (sumStep R s) sumInit bs) idx = oneShotSum R s bs idx ∧
    meanGet R (List.foldl (meanStep R s) meanInit bs) idx = oneShotMean R s bs idx :=
  ⟨sum_stream_eq_oneshot R s bs idx h, mean_stream_eq_oneshot R s bs idx h⟩

/-- A small unmasked batch used to witness the equivalence law. -/
def witBatch : Batch := ⟨2, fun _ => ERat.fin 3, fun _ => false⟩

/-- Witness for C1: the equivalence law applied to a concrete one-batch
stream reduced over all axes. -/
theorem streaming_equals_oneshot_witness :
    validIdx (redShape (fun _ => true) (totExt [witBatch] :: [])) [] = true ∧
    (sumGet (fun _ => true)
        (List.foldl (sumStep (fun _ => true) []) sumInit [witBatch]) []
       = oneShotSum (fun _ => true) [] [witBatch] [] ∧
     meanGet (fun _ => true)
        (List.foldl (meanStep (fun _ => true) []) meanInit [witBatch]) []
       = oneShotMean (fun _ => true) [] [witBatch] []) :=
  ⟨by decide, streaming_equals_oneshot (fun _ => true) [] [witBatch] [] (by decide)⟩

/-- Claim C3: `get()` on an accumulator that has never received a `step`
call is well-defined and returns the operator's identity: `0` for `Sum`
and `NaN` for `Mean` (its valid count is zero, so `get` divides `0/0`),
for every reduction-axis specification and at every index. -/
theorem empty_accumulator_identity (R : Nat → Bool) (idx : Index) :
    sumGet R sumInit idx = ERat.fin 0 ∧ meanGet R meanInit idx = ERat.nan := by
  constructor
  · by_cases hR : R 0 = true
    · simp [sumGet, sumInit, hR]
    · simp only [Bool.not_eq_true] at hR
      simp [sumGet, sumInit, hR, catList]
  · by_cases hR : R 0 = true
    · simp [meanGet, meanInit, hR, ERat.div_def, ERat.div]
    · simp only [Bool.not_eq_true] at hR
      simp [meanGet, meanInit, hR, catList]

/-- Claim C4: if every entry of every batch is masked, `Sum.get()` reads
`0` and `Mean.get()` reads `NaN` at every position, for every
reduction-axis specification. -/
theorem all_masked_stream (R : Nat → Bool) (s : Shape) (bs : List Batch)
    (hmask : ∀ b ∈ bs, ∀ jdx, b.msk jdx = true) (idx : Index) :
    sumGet R (List.foldl (sumStep R s) sumInit bs) idx = ERat.fin 0 ∧
    meanGet R (List.foldl (meanStep R s) meanInit bs) idx = ERat.nan := by
  have hmv : ∀ b ∈ bs, mval b = fun _ => (0 : ERat) := by
    intro b hb
    funext jdx
    simp [mval, hmask b hb jdx, ERat.zero_def]
  have hcv : ∀ b ∈ bs, cval b = fun _ => (0 : ERat) := by
    intro b hb
    funext jdx
    simp [cval, hmask b hb jdx, ERat.zero_def]
  have hsum0 : ∀ (jdx : Index),
      (bs.map (fun b => redSum R (b.n :: s) (mval b) jdx)).sum = 0 := by
    intro jdx
    apply List.sum_eq_zero
    intro x hx
    rcases List.mem_map.mp hx with ⟨b, hb, rfl⟩
    rw [hmv b hb]
    exact redSum_zero (b.n :: s) R jdx
  have hcnt0 : ∀ (jdx : Index),
      (bs.map (fun b => redSum R (b.n :: s) (cval b) jdx)).sum = 0 := by
    intro jdx
    apply List.sum_eq_zero
    intro x hx
    rcases List.mem_map.mp hx with ⟨b, hb, rfl⟩
    rw [hcv b hb]
    exact redSum_zero (b.n :: s) R jdx
  constructor
  · by_cases hR : R 0 = true
    · simp only [sumGet, hR, if_true]
      rw [sumFold_total R hR s bs sumInit idx]
      simp [sumInit, hsum0, ← ERat.zero_def]
    · simp only [Bool.not_eq_true] at hR
      simp only [sumGet, hR, Bool.false_eq_true, if_false]
      rw [sumFold_parts R hR s bs sumInit]
      simp only [sumInit, List.nil_append]
      apply catList_const
      intro p hp jdx
      rcases List.mem_map.mp hp with ⟨b, hb, rfl⟩
      simp only
      rw [hmv b hb]
      rw [show (ERat.fin 0) = (0 : ERat) from rfl]
      exact redSum_zero (b.n :: s) R jdx
  · by_cases hR : R 0 = true
    · simp only [meanGet, hR, if_true]
      rw [meanFold_num R hR s bs meanInit idx, meanFold_den R hR s bs meanInit idx]
      simp only [meanInit, hsum0, hcnt0]
      norm_num [ERat.zero_def, ERat.add_def, ERat.add, ERat.div_def, ERat.div]
    · simp only [Bool.not_eq_true] at hR
      simp only [meanGet, hR, Bool.false_eq_true, if_false]
      rw [meanFold_parts R hR s bs meanInit]
      simp only [meanInit, List.nil_append]
      apply catList_const
      intro p hp jdx
      rcases List.mem_map.mp hp with ⟨b, hb, rfl⟩
      simp only
      rw [hmv b hb, hcv b hb]
      rw [redSum_zero (b.n :: s) R jdx]
      norm_num [ERat.zero_def, ERat.div_def, ERat.div]

/-- A fully masked batch (as produced by `np.ma.masked_invalid` on an
all-NaN array). -/
def maskedBatch : Batch := ⟨2, fun _ => ERat.nan, fun _ => true⟩

/-- Witness for C4: a one-batch all-masked stream reduced over axis 0
yields `0` for `Sum` and `NaN` for `Mean`. -/
theorem all_masked_stream_witness :
    (∀ b ∈ [maskedBatch], ∀ jdx, b.msk jdx = true) ∧
    (sumGet axisZero (List.foldl (sumStep axisZero [2]) sumInit [maskedBatch]) [0]
        = ERat.fin 0 ∧
     meanGet axisZero (List.foldl (meanStep axisZero [2]) meanInit [maskedBatch]) [0]
        = ERat.nan) := by
  have hm : ∀ b ∈ [maskedBatch], ∀ jdx, b.msk jdx = true := by
    intro b hb jdx
    rw [List.mem_singleton] at hb
    subst hb
    rfl
  exact ⟨hm, all_masked_stream axisZero [2] [maskedBatch] hm [0]⟩

/-- Claim C5: feeding a `Sum` accumulator the two masked `(2,2)` batches
`[[0, NaN], [0, 0]]` then `[[0, 5], [-5, NaN]]` (NaN entries masked):
with reduction axis `{0}` `get()` reads `[-5, 5]` (columns merged across
batches); with reduction axis `{1}` `get()` reads `[0, 0, 5, -5]` — the
per-batch row sums concatenated along axis 0 in ingestion order. -/
theorem sum_masked_scenario :
    (sumGet axisZero
        (List.foldl (sumStep axisZero [2]) sumInit [scenBatch1, scenBatch2]) [0]
       = ERat.fin (-5) ∧
     sumGet axisZero
        (List.foldl (sumStep axisZero [2]) sumInit [scenBatch1, scenBatch2]) [1]
       = ERat.fin 5) ∧
    (sumGet axisOne
        (List.foldl (sumStep axisOne [2]) sumInit [scenBatch1, scenBatch2]) [0]
       = ERat.fin 0 ∧
     sumGet axisOne
        (List.foldl (sumStep axisOne [2]) sumInit [scenBatch1, scenBatch2]) [1]
       = ERat.fin 0 ∧
     sumGet axisOne
        (List.foldl (sumStep axisOne [2]) sumInit [scenBatch1, scenBatch2]) [2]
       = ERat.fin 5 ∧
     sumGet axisOne
        (List.foldl (sumStep axisOne [2]) sumInit [scenBatch1, scenBatch2]) [3]
       = ERat.fin (-5)) := by
  refine ⟨⟨?_, ?_⟩, ?_, ?_, ?_, ?_⟩ <;>
    norm_num [sumGet, sumStep, sumInit, axisZero, axisOne, scenBatch1, scenBatch2,
      mval, redSum, Finset.sum_range_succ, catFun, catList, ERat.add_def, ERat.add]

/-- Claim C6: for `target = [0, 0.1, 0.2, 0.3, 0.4]` and
`forecast = [0.4] * 5`: `mase(seasonal_error=1) = 0.2`, `mse = 0.06`,
`quantile_loss(q=0.5) = 1.0`, `coverage = 1.0` (equality counts as
covered), `mape = +Inf`, and `smape = 436/525 ≈ 0.8304761904761906`. -/
theorem metric_scenario_linear_constant :
    mase LINEAR CONSTANT (ERat.fin 1) = ERat.fin (1/5) ∧
    mse LINEAR CONSTANT = ERat.fin (3/50) ∧
    quantile_loss LINEAR CONSTANT (ERat.fin (1/2)) = ERat.fin 1 ∧
    coverage LINEAR CONSTANT = ERat.fin 1 ∧
    mape LINEAR CONSTANT = ERat.pinf ∧
    smape LINEAR CONSTANT = ERat.fin (436/525) := by
  refine ⟨?_, ?_, ?_, ?_, ?_, ?_⟩ <;>
    norm_num [mase, mse, quantile_loss, coverage, mape, smape, meanE, LINEAR, CONSTANT,
      ERat.sub_def, ERat.add_def, ERat.mul_def, ERat.div_def, ERat.leb,
      ERat.add, ERat.neg, ERat.mul, ERat.div, ERat.abs, abs_of_nonneg]

/-- Claim C7: `calculate_seasonal_error(past_data, seasonality)` applies
the formula `mean(|past_data[seasonality:] - past_data[:-seasonality]|)`
exactly when `seasonality < len(past_data)` and otherwise recomputes with
seasonality `1`; for `past_data = [0, 0.1, 0.2, 0.3, 0.4]` and
`seasonality = 5` (equal to the history length) the fallback applies and
the result is `0.1`. -/
theorem seasonal_error_fallback :
    (∀ (past_data : List ERat) (seasonality : Nat),
        calculate_seasonal_error past_data seasonality
          = if seasonality < past_data.length
            then seasonal_error_formula past_data seasonality
            else seasonal_error_formula past_data 1) ∧
    ¬ (5 < LINEAR.length) ∧
    calculate_seasonal_error LINEAR 5 = ERat.fin (1/10) := by
  refine ⟨fun _ _ => rfl, by norm_num [LINEAR], ?_⟩
  norm_num [calculate_seasonal_error, seasonal_error_formula, meanE, LINEAR,
    ERat.sub_def, ERat.add_def, ERat.div_def, ERat.add, ERat.neg, ERat.div, ERat.abs,
    abs_of_nonneg]

/-- Claim C8: `quantile_loss(t, f, q)` is `2` times the sum over all
points of `q*(t-f)` where `t ≥ f` and `(1-q)*(f-t)` where `t < f` (a
sum, not a mean); for `t = [0, 0.1, 0.2, 0.3, 0.4]` and `f` all zeros it
returns `0.2`, `1.0`, `1.8` at `q = 0.1, 0.5, 0.9`. -/
theorem quantile_loss_formula :
    (∀ (target forecast : List ERat) (q : ERat),
        quantile_loss target forecast q
          = ERat.fin 2 *
              (List.zipWith
                (fun t f =>
                  if ERat.leb f t then q * (t - f) else (ERat.fin 1 - q) * (f - t))
                target forecast).sum) ∧
    quantile_loss LINEAR ZEROES (ERat.fin (1/10)) = ERat.fin (1/5) ∧
    quantile_loss LINEAR ZEROES (ERat.fin (1/2)) = ERat.fin 1 ∧
    quantile_loss LINEAR ZEROES (ERat.fin (9/10)) = ERat.fin (9/5) := by
  refine ⟨fun _ _ _ => rfl, ?_, ?_, ?_⟩ <;>
    norm_num [quantile_loss, LINEAR, ZEROES, ERat.sub_def, ERat.add_def, ERat.mul_def,
      ERat.leb, ERat.add, ERat.neg, ERat.mul]

/-- Multiplication by the finite positive constant `2` distributes over
IEEE addition (in every special-value case). -/
theorem two_mul_add (x y : ERat) :
    ERat.fin 2 * (x + y) = ERat.fin 2 * x + ERat.fin 2 * y := by
  cases x <;> cases y <;>
    norm_num [ERat.mul_def, ERat.add_def, ERat.mul, ERat.add] <;> ring

/-- Doubling the median pinball term gives the absolute error, including
every IEEE special-value case. -/
theorem two_mul_half_pinball (t f : ERat) :
    ERat.fin 2 * (if ERat.leb f t then ERat.fin (1/2) * (t - f)
                  else (ERat.fin 1 - ERat.fin (1/2)) * (f - t))
      = (t - f).abs := by
  cases t with
  | fin a =>
      cases f with
      | fin b =>
          rcases le_or_lt b a with h | h
          · have hle : ERat.leb (ERat.fin b) (ERat.fin a) = true := by
              simp [ERat.leb, h]
            rw [if_pos hle]
            have habs : |a - b| = a - b := abs_of_nonneg (by linarith)
            norm_num [ERat.sub_def, ERat.mul_def, ERat.add_def,
              ERat.add, ERat.neg, ERat.mul, ERat.abs, ← sub_eq_add_neg, habs]
            ring
          · have hle : ERat.leb (ERat.fin b) (ERat.fin a) = false := by
              simp [ERat.leb]
              linarith
            rw [if_neg (by simp [hle])]
            have habs : |a - b| = -(a - b) := abs_of_neg (by linarith)
            norm_num [ERat.sub_def, ERat.mul_def, ERat.add_def,
              ERat.add, ERat.neg, ERat.mul, ERat.abs, ← sub_eq_add_neg, habs]
            ring
      | pinf =>
          norm_num [ERat.leb, ERat.sub_def, ERat.mul_def, ERat.add_def,
            ERat.add, ERat.neg, ERat.mul, ERat.abs]
      | ninf =>
          norm_num [ERat.leb, ERat.sub_def, ERat.mul_def, ERat.add_def,
            ERat.add, ERat.neg, ERat.mul, ERat.abs]
      | nan =>
          norm_num [ERat.leb, ERat.sub_def, ERat.mul_def, ERat.add_def,
            ERat.add, ERat.neg, ERat.mul, ERat.abs]
  | pinf =>
      cases f <;>
        norm_num [ERat.leb, ERat.sub_def, ERat.mul_def, ERat.add_def,
          ERat.add, ERat.neg, ERat.mul, ERat.abs]
  | ninf =>
      cases f <;>
        norm_num [ERat.leb, ERat.sub_def, ERat.mul_def, ERat.add_def,
          ERat.add, ERat.neg, ERat.mul, ERat.abs]
  | nan =>
      cases f <;>
        norm_num [ERat.leb, ERat.sub_def, ERat.mul_def, ERat.add_def,
          ERat.add, ERat.neg, ERat.mul, ERat.abs]

/-- Multiplication by `2` distributes over an IEEE sum of a list. -/
theorem fin_two_mul_sum : ∀ (l : List ERat),
    ERat.fin 2 * l.sum = (l.map (fun x => ERat.fin 2 * x)).sum
  | [] => by
      norm_num [ERat.zero_def, ERat.mul_def, ERat.mul, ← ERat.zero_def]
  | x :: l => by
      simp only [List.sum_cons, List.map_cons]
      rw [two_mul_add, fin_two_mul_sum l]

/-- Doubling every median pinball term of a zip gives the absolute
errors of the zip. -/
theorem map_two_pinball : ∀ (t f : List ERat),
    (List.zipWith
        (fun a b => if ERat.leb b a then ERat.fin (1/2) * (a - b)
                    else (ERat.fin 1 - ERat.fin (1/2)) * (b - a)) t f).map
      (fun x => ERat.fin 2 * x)
      = List.zipWith (fun a b => (a - b).abs) t f
  | [], _ => by simp
  | _ :: _, [] => by simp
  | a :: t, b :: f => by
      simp only [List.zipWith_cons_cons, List.map_cons]
      rw [two_mul_half_pinball a b, map_two_pinball t f]

/-- Claim C9: at the median level `q = 0.5`, the doubled pinball loss
collapses to the plain sum of absolute errors: for every target and
forecast array, `quantile_loss(t, f, 0.5) = abs_error(t, f)` (IEEE
special values included). -/
theorem quantile_loss_median_is_abs_error (target forecast : List ERat) :
    quantile_loss target forecast (ERat.fin (1/2)) = abs_error target forecast := by
  unfold quantile_loss abs_error
  rw [fin_two_mul_sum, map_two_pinball]

/-- Zipping two lists of embedded rationals is mapping over the zipped
rational pairs. -/
theorem zipWith_fin_fin {α : Type} (F : ERat → ERat → α) :
    ∀ (t f : List ℚ),
      List.zipWith F (t.map ERat.fin) (f.map ERat.fin)
        = (t.zip f).map (fun p => F (ERat.fin p.1) (ERat.fin p.2))
  | [], _ => by simp
  | _ :: _, [] => by simp
  | a :: t, b :: f => by
      simp only [List.map_cons, List.zipWith_cons_cons, List.zip_cons_cons]
      rw [zipWith_fin_fin F t f]

/-- A sum of embedded rationals is the embedded rational sum. -/
theorem sum_map_fin {α : Type} (g : α → ℚ) : ∀ (l : List α),
    (l.map (fun x => ERat.fin (g x))).sum = ERat.fin ((l.map g).sum)
  | [] => rfl
  | x :: l => by
      simp only [List.map_cons, List.sum_cons]
      rw [sum_map_fin g l]
      rfl

/-- `mase` with a zero seasonal error: NaN when the absolute errors sum
to zero (equivalently, when their mean is zero or the zip is empty), and
`+Inf` otherwise. -/
theorem mase_zero_seasonal (t f : List ℚ) :
    mase (t.map ERat.fin) (f.map ERat.fin) (ERat.fin 0)
      = if ((t.zip f).map (fun p => |p.1 - p.2|)).sum = 0
        then ERat.nan else ERat.pinf := by
  unfold mase meanE
  rw [zipWith_fin_fin (fun a b => (a - b).abs) t f]
  rw [show (fun p : ℚ × ℚ => (ERat.fin p.1 - ERat.fin p.2).abs)
        = fun p => ERat.fin |p.1 - p.2| from by
    funext p
    simp [ERat.sub_def, ERat.add, ERat.neg, ERat.abs, ← sub_eq_add_neg]]
  rw [sum_map_fin (fun p => |p.1 - p.2|) (t.zip f)]
  simp only [List.length_map]
  have hSnn : 0 ≤ ((t.zip f).map (fun p => |p.1 - p.2|)).sum := by
    apply List.sum_nonneg
    intro x hx
    rcases List.mem_map.mp hx with ⟨p, _, rfl⟩
    exact abs_nonneg _
  rcases Nat.eq_zero_or_pos (t.zip f).length with hL | hL
  · have hz : t.zip f = [] := List.length_eq_zero.mp hL
    simp [hz, ERat.div_def, ERat.div]
  · have hLne : ((t.zip f).length : ℚ) ≠ 0 := by
      exact_mod_cast hL.ne'
    by_cases hS0 : ((t.zip f).map (fun p => |p.1 - p.2|)).sum = 0
    · rw [if_pos hS0, hS0]
      rw [ERat.div_fin_fin 0 ((t.zip f).length : ℚ), if_neg hLne, zero_div]
      rw [ERat.div_fin_fin 0 0]
      norm_num
    · rw [if_neg hS0]
      have hSpos : 0 < ((t.zip f).map (fun p => |p.1 - p.2|)).sum :=
        lt_of_le_of_ne hSnn (Ne.symm hS0)
      have hq : 0 < ((t.zip f).map (fun p => |p.1 - p.2|)).sum
          / ((t.zip f).length : ℚ) := by
        apply div_pos hSpos
        exact_mod_cast hL
      rw [ERat.div_fin_fin, if_neg hLne]
      rw [ERat.div_fin_fin _ 0, if_pos rfl, if_neg hq.ne', if_pos hq]

/-- One elementwise `mape` term over a rational pair. -/
def mapeTerm (p : ℚ × ℚ) : ERat := ERat.fin |p.1 - p.2| / ERat.fin |p.1|

/-- A `mape` term list containing a `0/0` point sums to NaN. -/
theorem sum_mapeTerm_nan : ∀ (ps : List (ℚ × ℚ)),
    (∃ p ∈ ps, p.1 = 0 ∧ p.2 = 0) → (ps.map mapeTerm).sum = ERat.nan
  | [], h => by simp at h
  | p :: ps, h => by
      simp only [List.map_cons, List.sum_cons]
      rcases h with ⟨q, hq, hq0⟩
      rcases List.mem_cons.mp hq with rfl | hmem
      · have hterm : mapeTerm q = ERat.nan := by
          simp [mapeTerm, hq0.1, hq0.2, ERat.div_def, ERat.div]
        rw [hterm, ERat.nan_add]
      · rw [sum_mapeTerm_nan ps ⟨q, hmem, hq0⟩, ERat.add_nan]

/-- A `mape` term list with no `0/0` point sums to `+Inf` when it has an
`x/0` point (`x` nonzero) and to the embedded rational sum otherwise. -/
theorem sum_mapeTerm_ok : ∀ (ps : List (ℚ × ℚ)),
    (∀ p ∈ ps, ¬(p.1 = 0 ∧ p.2 = 0)) →
    (ps.map mapeTerm).sum
      = if ∃ p ∈ ps, p.1 = 0 then ERat.pinf
        else ERat.fin ((ps.map (fun p => |p.1 - p.2| / |p.1|)).sum)
  | [], _ => by simp [ERat.zero_def]
  | p :: ps, h => by
      have hhead : ¬(p.1 = 0 ∧ p.2 = 0) := h p (List.mem_cons_self _ _)
      have htail := fun q hq => h q (List.mem_cons_of_mem _ hq)
      simp only [List.map_cons, List.sum_cons]
      rw [sum_mapeTerm_ok ps htail]
      by_cases hp : p.1 = 0
      · have hp2 : p.2 ≠ 0 := fun h2 => hhead ⟨hp, h2⟩
        have hterm : mapeTerm p = ERat.pinf := by
          simp [mapeTerm, hp, ERat.div_def, ERat.div, zero_sub, abs_neg,
            abs_ne_zero.mpr hp2, abs_pos.mpr hp2]
        rw [hterm]
        rw [if_pos (⟨p, List.mem_cons_self _ _, hp⟩ : ∃ q ∈ p :: ps, q.1 = 0)]
        by_cases hex2 : ∃ q ∈ ps, q.1 = 0
        · rw [if_pos hex2]
          rfl
        · rw [if_neg hex2]
          rfl
      · have hterm : mapeTerm p = ERat.fin (|p.1 - p.2| / |p.1|) := by
          simp [mapeTerm, ERat.div_def, ERat.div, abs_ne_zero.mpr hp]
        rw [hterm]
        by_cases hex2 : ∃ q ∈ ps, q.1 = 0
        · rw [if_pos hex2]
          rcases hex2 with ⟨q, hq, hq0⟩
          rw [if_pos (⟨q, List.mem_cons_of_mem _ hq, hq0⟩ : ∃ q ∈ p :: ps, q.1 = 0)]
          rfl
        · rw [if_neg hex2]
          have hnone : ¬ ∃ q ∈ p :: ps, q.1 = 0 := by
            rintro ⟨q, hq, hq0⟩
            rcases List.mem_cons.mp hq with rfl | hm
            · exact hp hq0
            · exact hex2 ⟨q, hm, hq0⟩
          rw [if_neg hnone]
          rfl

/-- Full degeneracy characterization of `mape` on rational inputs: NaN
for an empty zip (empty mean) or any `0/0` point, `+Inf` when the only
degenerate points are `x/0` with `x` nonzero, and the finite rational
mean otherwise. -/
theorem mape_char (t f : List ℚ) :
    mape (t.map ERat.fin) (f.map ERat.fin)
      = if t.zip f = [] then ERat.nan
        else if ∃ p ∈ t.zip f, p.1 = 0 ∧ p.2 = 0 then ERat.nan
        else if ∃ p ∈ t.zip f, p.1 = 0 then ERat.pinf
        else ERat.fin (((t.zip f).map (fun p => |p.1 - p.2| / |p.1|)).sum
              / ((t.zip f).length : ℚ)) := by
  unfold mape meanE
  rw [zipWith_fin_fin (fun a b => (a - b).abs / a.abs) t f]
  rw [show (fun p : ℚ × ℚ => (ERat.fin p.1 - ERat.fin p.2).abs / (ERat.fin p.1).abs)
        = mapeTerm from by
    funext p
    simp [mapeTerm, ERat.sub_def, ERat.add, ERat.neg, ERat.abs, ERat.div_def,
      ← sub_eq_add_neg]]
  simp only [List.length_map]
  by_cases hz : t.zip f = []
  · rw [if_pos hz, hz]
    simp [ERat.div_def, ERat.div]
  · rw [if_neg hz]
    have hL : 0 < (t.zip f).length := List.length_pos.mpr hz
    by_cases h00 : ∃ p ∈ t.zip f, p.1 = 0 ∧ p.2 = 0
    · rw [if_pos h00, sum_mapeTerm_nan (t.zip f) h00]
      rfl
    · rw [if_neg h00]
      push_neg at h00
      rw [sum_mapeTerm_ok (t.zip f) (fun p hp => by
        intro hc
        exact (h00 p hp hc.1) hc.2)]
      by_cases hex : ∃ p ∈ t.zip f, p.1 = 0
      · rw [if_pos hex, if_pos hex]
        have hLnn : (0:ℚ) ≤ ((t.zip f).length : ℚ) := by positivity
        rw [ERat.div_pinf_fin, if_pos hLnn]
      · rw [if_neg hex, if_neg hex]
        have hLne : ((t.zip f).length : ℚ) ≠ 0 := by
          exact_mod_cast hL.ne'
        rw [ERat.div_fin_fin, if_neg hLne]

/-- Claim C2: numeric degeneracy is defined output (the model's
arithmetic is total, per IEEE rules): with `seasonal_error = 0`, `mase`
is NaN exactly when the absolute errors sum (hence their mean) is zero
and `+Inf` when it is positive; `mape` is NaN when some point divides
`0/0` (or the mean is over an empty zip), `+Inf` when the only degenerate
points are `x/0` with `x` nonzero, and a finite rational otherwise. -/
theorem metric_degeneracy_defined (t f : List ℚ) :
    (mase (t.map ERat.fin) (f.map ERat.fin) (ERat.fin 0)
       = if ((t.zip f).map (fun p => |p.1 - p.2|)).sum = 0
         then ERat.nan else ERat.pinf) ∧
    (mape (t.map ERat.fin) (f.map ERat.fin)
       = if t.zip f = [] then ERat.nan
         else if ∃ p ∈ t.zip f, p.1 = 0 ∧ p.2 = 0 then ERat.nan
         else if ∃ p ∈ t.zip f, p.1 = 0 then ERat.pinf
         else ERat.fin (((t.zip f).map (fun p => |p.1 - p.2| / |p.1|)).sum
               / ((t.zip f).length : ℚ))) :=
  ⟨mase_zero_seasonal t f, mape_char t f⟩

/-- One elementwise `smape` term over a rational pair. -/
def smapeTerm (p : ℚ × ℚ) : ERat :=
  ERat.fin |p.1 - p.2| / ERat.fin (|p.1| + |p.2|)

/-- An `smape` term list containing a point with target and forecast
both zero sums to NaN. -/
theorem sum_smapeTerm_nan : ∀ (ps : List (ℚ × ℚ)), (0, 0) ∈ ps →
    (ps.map smapeTerm).sum = ERat.nan
  | [], h => absurd h (List.not_mem_nil _)
  | p :: ps, h => by
      simp only [List.map_cons, List.sum_cons]
      rcases List.mem_cons.mp h with h0 | hmem
      · rw [← h0]
        have hterm : smapeTerm (0, 0) = ERat.nan := by
          simp [smapeTerm, ERat.div_fin_fin]
        rw [hterm, ERat.nan_add]
      · rw [sum_smapeTerm_nan ps hmem, ERat.add_nan]

/-- An `smape` term list with no all-zero point sums to a finite
rational between `0` and the point count (each term lies in `[0, 1]`). -/
theorem sum_smapeTerm_bounded : ∀ (ps : List (ℚ × ℚ)), (0, 0) ∉ ps →
    ∃ r : ℚ, (ps.map smapeTerm).sum = ERat.fin r ∧ 0 ≤ r ∧ r ≤ ps.length
  | [], _ => ⟨0, rfl, le_refl 0, by simp⟩
  | p :: ps, h => by
      have hp : p ≠ (0, 0) := fun hc => h (hc ▸ List.mem_cons_self _ _)
      have htail : (0, 0) ∉ ps := fun hc => h (List.mem_cons_of_mem _ hc)
      obtain ⟨r, hr, hr0, hrlen⟩ := sum_smapeTerm_bounded ps htail
      have h1 : p.1 ≠ 0 ∨ p.2 ≠ 0 := by
        by_contra hc
        push_neg at hc
        exact hp (Prod.ext hc.1 hc.2)
      have hden : 0 < |p.1| + |p.2| := by
        rcases h1 with h1 | h1
        · have ha := abs_pos.mpr h1
          have hb := abs_nonneg p.2
          linarith
        · have ha := abs_pos.mpr h1
          have hb := abs_nonneg p.1
          linarith
      have hterm : smapeTerm p = ERat.fin (|p.1 - p.2| / (|p.1| + |p.2|)) := by
        rw [smapeTerm, ERat.div_fin_fin, if_neg hden.ne']
      have htri : |p.1 - p.2| ≤ |p.1| + |p.2| := by
        calc |p.1 - p.2| ≤ |p.1 - 0| + |0 - p.2| := abs_sub_le p.1 0 p.2
        _ = |p.1| + |p.2| := by rw [sub_zero, zero_sub, abs_neg]
      refine ⟨|p.1 - p.2| / (|p.1| + |p.2|) + r, ?_, ?_, ?_⟩
      · simp only [List.map_cons, List.sum_cons, hterm, hr]
        rfl
      · have hq : 0 ≤ |p.1 - p.2| / (|p.1| + |p.2|) :=
          div_nonneg (abs_nonneg _) hden.le
        linarith
      · have hle1 : |p.1 - p.2| / (|p.1| + |p.2|) ≤ 1 := by
          rw [div_le_one hden]
          exact htri
        simp only [List.length_cons]
        push_cast
        linarith

/-- Claim C10: on nonempty rational input, `smape` is NaN exactly when
some point has target and forecast both zero; otherwise it is a finite
value in the closed interval `[0, 2]`; and the bound `2` is attained,
e.g. at target `[0]`, forecast `[1]`. -/
theorem smape_range (t f : List ℚ) (h : 0 < (t.zip f).length) :
    (if (0, 0) ∈ t.zip f
     then smape (t.map ERat.fin) (f.map ERat.fin) = ERat.nan
     else ∃ r : ℚ, smape (t.map ERat.fin) (f.map ERat.fin) = ERat.fin r
            ∧ 0 ≤ r ∧ r ≤ 2) ∧
    smape [ERat.fin 0] [ERat.fin 1] = ERat.fin 2 := by
  constructor
  · have hrw : smape (t.map ERat.fin) (f.map ERat.fin)
        = ERat.fin 2 * (((t.zip f).map smapeTerm).sum
            / ERat.fin ((t.zip f).length : ℚ)) := by
      unfold smape meanE
      rw [zipWith_fin_fin (fun a b => (a - b).abs / (a.abs + b.abs)) t f]
      rw [show (fun p : ℚ × ℚ =>
            (ERat.fin p.1 - ERat.fin p.2).abs /
              ((ERat.fin p.1).abs + (ERat.fin p.2).abs))
          = smapeTerm from by
        funext p
        simp [smapeTerm, ERat.sub_def, ERat.add_def, ERat.add, ERat.neg, ERat.abs,
          ← sub_eq_add_neg]]
      rw [List.length_map]
    by_cases h00 : (0, 0) ∈ t.zip f
    · rw [if_pos h00, hrw, sum_smapeTerm_nan (t.zip f) h00]
      rfl
    · rw [if_neg h00, hrw]
      obtain ⟨r, hr, hr0, hrlen⟩ := sum_smapeTerm_bounded (t.zip f) h00
      have hLne : ((t.zip f).length : ℚ) ≠ 0 := by
        exact_mod_cast h.ne'
      have hLpos : (0:ℚ) < ((t.zip f).length : ℚ) := by exact_mod_cast h
      refine ⟨2 * (r / ((t.zip f).length : ℚ)), ?_, ?_, ?_⟩
      · rw [hr, ERat.div_fin_fin, if_neg hLne]
        rfl
      · have hq : 0 ≤ r / ((t.zip f).length : ℚ) := div_nonneg hr0 hLpos.le
        linarith
      · have hdiv : r / ((t.zip f).length : ℚ) ≤ 1 := by
          rw [div_le_one hLpos]
          exact hrlen
        linarith
  · norm_num [smape, meanE, ERat.sub_def, ERat.add_def, ERat.mul_def, ERat.div_def,
      ERat.add, ERat.neg, ERat.mul, ERat.div, ERat.abs]

/-- Witness for C10: a concrete nonempty input with no all-zero point
yields a finite value in `[0, 2]`, and the attainment example reads
exactly `2`. -/
theorem smape_range_witness :
    0 < (([(1:ℚ)]).zip [(2:ℚ)]).length ∧
    ((if ((0:ℚ), (0:ℚ)) ∈ ([(1:ℚ)]).zip [(2:ℚ)]
      then smape ([(1:ℚ)].map ERat.fin) ([(2:ℚ)].map ERat.fin) = ERat.nan
      else ∃ r : ℚ, smape ([(1:ℚ)].map ERat.fin) ([(2:ℚ)].map ERat.fin) = ERat.fin r
             ∧ 0 ≤ r ∧ r ≤ 2) ∧
     smape [ERat.fin 0] [ERat.fin 1] = ERat.fin 2) :=
  ⟨by simp, smape_range [1] [2] (by simp)⟩
